import Mathlib

/-!
# Verification of `FolderSynchronizer.sync_folders`

Shallow embedding of the recursive folder synchronizer in
`src/core/synchronizer.py` (class `FolderSynchronizer`, method
`sync_folders`).  A filesystem subtree is modelled as an inductive tree of
regular files (byte lists) and directories (named entry lists, in the order
`os.listdir` enumerates them).  The synchronizer reads the source subtree and
mutates the replica subtree; since all reads target the source path and all
writes target the replica path, and the two roots are assumed disjoint, the
run is modelled as a function from the pair of subtrees to the new replica
subtree, together with the list of mutating filesystem calls performed and an
optional error (the first uncaught Python exception, which aborts the whole
call).
-/

namespace FolderSync

/-- A filesystem tree: a regular file with its byte content, or a directory
with its named entries in enumeration order. -/
inductive FSTree : Type where
  | file (content : List Nat)
  | dir (entries : List (String × FSTree))

/-- Look up the entry named `n` in a directory's entry list (first match). -/
def lookupEntry (n : String) : List (String × FSTree) → Option FSTree
  | [] => none
  | (m, t) :: rest => if m = n then some t else lookupEntry n rest

/-- Write the value `v` at name `n`: replace the first entry of that name, or
append a fresh entry when the name is absent (how a directory mutates when a
child is created or overwritten). -/
def insertEntry (n : String) (v : FSTree) : List (String × FSTree) → List (String × FSTree)
  | [] => [(n, v)]
  | (m, t) :: rest => if m = n then (m, v) :: rest else (m, t) :: insertEntry n v rest

/-- Which of the two trees a filesystem call targets. -/
inductive Root : Type where
  | source
  | replica
deriving DecidableEq, Repr

/-- A mutating filesystem call made by `sync_folders`, with the root-relative
path of its target.  `removeTree` records the literal `ignore_errors` argument
passed to `shutil.rmtree`. -/
inductive FsOp : Type where
  | mkdir (root : Root) (path : List String)
  | copyFile (srcRoot : Root) (srcPath : List String) (dstRoot : Root) (dstPath : List String)
  | removeFile (root : Root) (path : List String)
  | removeTree (root : Root) (path : List String) (ignoreErrors : Bool)
deriving DecidableEq, Repr

/-- The uncaught Python exceptions the embedded operations can raise, tagged
by the call site that raises them:
* `listSourceNotDir` — `os.listdir(source_path)` on a non-directory;
* `listReplicaNotDir` — `os.listdir(replica_path)` on a non-directory
  (start of the prune pass);
* `mkdirUnderFile` — `Path.mkdir` with a regular file where a parent
  directory is required (`NotADirectoryError`);
* `copyUnderFile` — `shutil.copy2` whose destination path lies under a
  regular file (`NotADirectoryError`);
* `copyToDir` — `shutil.copy2` whose effective destination resolves to an
  existing directory (`IsADirectoryError`). -/
inductive SyncErr : Type where
  | listSourceNotDir
  | listReplicaNotDir
  | mkdirUnderFile
  | copyUnderFile
  | copyToDir
deriving DecidableEq, Repr

/-- Outcome of one `sync_folders` call on a replica subtree: the subtree's
state when the call returns or the exception escapes, the mutating calls
performed so far, and the exception if one was raised. -/
structure SyncResult : Type where
  tree : FSTree
  ops : List FsOp
  err : Option SyncErr

/-- The prune loop's surviving entries (lines 83-97): every replica entry whose
name does not exist in the source listing is deleted. -/
def pruneEntries (s : List (String × FSTree)) (rE : List (String × FSTree)) :
    List (String × FSTree) :=
  rE.filter (fun e => (lookupEntry e.1 s).isSome)

/-- The deletion calls made by the prune loop, in replica enumeration order:
`shutil.rmtree(..., ignore_errors=True)` for a directory, `os.remove` for a
file. -/
def pruneOps (p : List String) (s : List (String × FSTree)) :
    List (String × FSTree) → List FsOp
  | [] => []
  | (n, t) :: rest =>
    if (lookupEntry n s).isSome then pruneOps p s rest
    else
      (match t with
       | .dir _ => FsOp.removeTree .replica (p ++ [n]) true
       | .file _ => FsOp.removeFile .replica (p ++ [n])) :: pruneOps p s rest

mutual

/-- `FolderSynchronizer.sync_folders(source_path, replica_path)`
(synchronizer.py lines 61-97).  `p` is the common root-relative path of the
two arguments (the recursion always pairs equal relative paths).  The reconcile
loop over `os.listdir(source_path)` runs first; the prune loop over
`os.listdir(replica_path)` runs after it.  An exception aborts the call and
propagates, leaving the mutations made so far in place. -/
def syncFolders (p : List String) (src rep : FSTree) : SyncResult :=
  match src with
  | .file _ => ⟨rep, [], some .listSourceNotDir⟩
  | .dir s =>
    let r := reconcile p s rep
    match r.err with
    | some e => ⟨r.tree, r.ops, some e⟩
    | none =>
      match r.tree with
      | .file c => ⟨.file c, r.ops, some .listReplicaNotDir⟩
      | .dir rE =>
        ⟨.dir (pruneEntries s rE), r.ops ++ pruneOps p s rE, none⟩
termination_by structural src

/-- The reconcile loop of `sync_folders` (lines 63-79): for each source entry,
a directory is created in the replica when absent and recursed into; a file is
copied when absent or byte-different (`filecmp.cmp(..., shallow=False)`). -/
def reconcile (p : List String) (entries : List (String × FSTree)) (rep : FSTree) :
    SyncResult :=
  match entries with
  | [] => ⟨rep, [], none⟩
  | (name, .dir d) :: rest =>
    match rep with
    | .file c =>
      -- replica_sub_item.exists() is False under a file parent; the
      -- Path.mkdir call then raises NotADirectoryError.
      ⟨.file c, [], some .mkdirUnderFile⟩
    | .dir rE =>
      match lookupEntry name rE with
      | some child =>
        -- exists() is True: no mkdir; recurse regardless of the child's kind.
        let r := syncFolders (p ++ [name]) (.dir d) child
        let rE1 := insertEntry name r.tree rE
        match r.err with
        | some e => ⟨.dir rE1, r.ops, some e⟩
        | none =>
          let r2 := reconcile p rest (.dir rE1)
          ⟨r2.tree, r.ops ++ r2.ops, r2.err⟩
      | none =>
        -- mkdir(parents=True, exist_ok=True), then recurse into the fresh dir.
        let r := syncFolders (p ++ [name]) (.dir d) (.dir [])
        let rE1 := insertEntry name r.tree rE
        match r.err with
        | some e => ⟨.dir rE1, FsOp.mkdir .replica (p ++ [name]) :: r.ops, some e⟩
        | none =>
          let r2 := reconcile p rest (.dir rE1)
          ⟨r2.tree, FsOp.mkdir .replica (p ++ [name]) :: (r.ops ++ r2.ops), r2.err⟩
  | (name, .file content) :: rest =>
    match rep with
    | .file c =>
      -- exists() is False under a file parent; shutil.copy2 then raises
      -- NotADirectoryError opening the destination.
      ⟨.file c, [], some .copyUnderFile⟩
    | .dir rE =>
      match lookupEntry name rE with
      | none =>
        let r2 := reconcile p rest (.dir (insertEntry name (.file content) rE))
        ⟨r2.tree,
          FsOp.copyFile .source (p ++ [name]) .replica (p ++ [name]) :: r2.ops, r2.err⟩
      | some (.file c) =>
        if c = content then
          -- filecmp.cmp returns True: no copy.
          reconcile p rest (.dir rE)
        else
          let r2 := reconcile p rest (.dir (insertEntry name (.file content) rE))
          ⟨r2.tree,
            FsOp.copyFile .source (p ++ [name]) .replica (p ++ [name]) :: r2.ops, r2.err⟩
      | some (.dir dE) =>
        -- filecmp.cmp returns False (replica entry is not a regular file);
        -- shutil.copy2 sees a directory destination and retargets it to
        -- dst/basename(src), i.e. replica/name/name.
        match lookupEntry name dE with
        | some (.dir _) =>
          -- the retargeted destination is itself a directory: IsADirectoryError.
          ⟨.dir rE, [], some .copyToDir⟩
        | _ =>
          let r2 := reconcile p rest
            (.dir (insertEntry name (.dir (insertEntry name (.file content) dE)) rE))
          ⟨r2.tree,
            FsOp.copyFile .source (p ++ [name]) .replica (p ++ [name]) :: r2.ops, r2.err⟩
termination_by structural entries
end

/-- `true` when no two entries of a directory listing share a name (what
`os.listdir` guarantees): the head name does not occur again in the tail. -/
def namesNodup : List (String × FSTree) → Bool
  | [] => true
  | (n, _) :: rest => (lookupEntry n rest).isNone && namesNodup rest

mutual

/-- Well-formed tree: every directory listing has pairwise distinct names
(true of any tree that a real filesystem can hold). -/
def wfTree : FSTree → Bool
  | .file _ => true
  | .dir es => namesNodup es && wfList es

/-- All entry values of a listing are well-formed. -/
def wfList : List (String × FSTree) → Bool
  | [] => true
  | (_, t) :: rest => wfTree t && wfList rest

end

mutual

/-- Kind-compatibility of a source tree with a replica tree: wherever a path
exists in both, the two entries have the same kind (file/file or dir/dir).
Paths present on only one side are unconstrained. -/
def compatibleT : FSTree → FSTree → Bool
  | .file _, .file _ => true
  | .dir s, .dir r => compatibleL s r
  | _, _ => false

/-- `compatibleT` lifted over the source listing against a replica listing. -/
def compatibleL : List (String × FSTree) → List (String × FSTree) → Bool
  | [], _ => true
  | (n, t) :: rest, r =>
    (match lookupEntry n r with
     | none => true
     | some t' => compatibleT t t') && compatibleL rest r

end

/-- Every name of the first listing exists (as some entry) in the second. -/
def allPresent : List (String × FSTree) → List (String × FSTree) → Bool
  | [], _ => true
  | (n, _) :: rest, s => (lookupEntry n s).isSome && allPresent rest s

mutual

/-- Full recursive structural-and-content comparison: `sameTree a b` is `true`
iff `a` and `b` hold the same names with the same kinds and, for files, the
same bytes (entry order is irrelevant). -/
def sameTree : FSTree → FSTree → Bool
  | .file a, .file b => a == b
  | .dir s, .dir r => sameForward s r && allPresent r s
  | _, _ => false

/-- Every entry of the first listing has a `sameTree`-equal entry of the same
name in the second listing. -/
def sameForward : List (String × FSTree) → List (String × FSTree) → Bool
  | [], _ => true
  | (n, t) :: rest, r =>
    (match lookupEntry n r with
     | none => false
     | some t' => sameTree t t') && sameForward rest r

end

/-- Follow a relative path down a tree. -/
def pathLookup : FSTree → List String → Option FSTree
  | t, [] => some t
  | .file _, _ :: _ => none
  | .dir es, n :: q =>
    match lookupEntry n es with
    | none => none
    | some t => pathLookup t q

/-- The root-relative path a filesystem call targets (for `copyFile`, the
destination it writes). -/
def FsOp.path : FsOp → List String
  | .mkdir _ q => q
  | .copyFile _ _ _ q => q
  | .removeFile _ q => q
  | .removeTree _ q _ => q

/-- Whether a filesystem call deletes something. -/
def FsOp.isRemoval : FsOp → Bool
  | .removeFile _ _ => true
  | .removeTree _ _ _ => true
  | _ => false

/-- Whether a filesystem call confines its write effect to the replica root
(and, for a copy, reads only from the source root). -/
def FsOp.writesReplicaOnly : FsOp → Bool
  | .mkdir r _ => r == .replica
  | .copyFile sr _ dr _ => sr == .source && dr == .replica
  | .removeFile r _ => r == .replica
  | .removeTree r _ _ => r == .replica

/-! ## Entry-list lemmas -/

theorem lookup_insert_self (n : String) (v : FSTree) (l : List (String × FSTree)) :
    lookupEntry n (insertEntry n v l) = some v := by
  induction l with
  | nil => simp [insertEntry, lookupEntry]
  | cons hd tl ih =>
    obtain ⟨m, t⟩ := hd
    by_cases h : m = n
    · subst h; simp [insertEntry, lookupEntry]
    · simp [insertEntry, lookupEntry, h, ih]

theorem lookup_insert_ne (m n : String) (v : FSTree) (l : List (String × FSTree))
    (h : m ≠ n) : lookupEntry m (insertEntry n v l) = lookupEntry m l := by
  induction l with
  | nil => simp [insertEntry, lookupEntry, Ne.symm h]
  | cons hd tl ih =>
    obtain ⟨k, t⟩ := hd
    by_cases hk : k = n
    · subst hk
      have : ¬ k = m := fun hh => h (hh.symm)
      simp [insertEntry, lookupEntry, this]
    · by_cases hm : k = m
      · subst hm; simp [insertEntry, lookupEntry, hk]
      · simp [insertEntry, lookupEntry, hk, hm, ih]

theorem insert_lookup_eq (n : String) (v : FSTree) (l : List (String × FSTree))
    (h : lookupEntry n l = some v) : insertEntry n v l = l := by
  induction l with
  | nil => simp [lookupEntry] at h
  | cons hd tl ih =>
    obtain ⟨m, t⟩ := hd
    by_cases hm : m = n
    · subst hm
      simp [lookupEntry] at h
      simp [insertEntry, h]
    · simp [lookupEntry, hm] at h
      simp [insertEntry, hm, ih h]

theorem lookup_none_key_ne (n : String) (l : List (String × FSTree))
    (h : lookupEntry n l = none) : ∀ e ∈ l, e.1 ≠ n := by
  induction l with
  | nil => simp
  | cons hd tl ih =>
    obtain ⟨m, t⟩ := hd
    by_cases hm : m = n
    · simp [lookupEntry, hm] at h
    · simp [lookupEntry, hm] at h
      intro e he
      rcases List.mem_cons.mp he with h1 | h2
      · subst h1; exact hm
      · exact ih h e h2

theorem lookup_none_filter (n : String) (pred : String × FSTree → Bool)
    (l : List (String × FSTree)) (h : lookupEntry n l = none) :
    lookupEntry n (l.filter pred) = none := by
  induction l with
  | nil => simp [lookupEntry]
  | cons hd tl ih =>
    obtain ⟨m, t⟩ := hd
    by_cases hm : m = n
    · simp [lookupEntry, hm] at h
    · simp [lookupEntry, hm] at h
      by_cases hp : pred (m, t)
      · simp [List.filter_cons, hp, lookupEntry, hm, ih h]
      · simp [List.filter_cons, hp, ih h]

theorem namesNodup_insert (n : String) (v : FSTree) (l : List (String × FSTree))
    (h : namesNodup l = true) : namesNodup (insertEntry n v l) = true := by
  induction l with
  | nil => simp [insertEntry, namesNodup, lookupEntry]
  | cons hd tl ih =>
    obtain ⟨m, t⟩ := hd
    simp [namesNodup] at h
    by_cases hm : m = n
    · subst hm; simp [insertEntry, namesNodup, h.1, h.2]
    · have hl : lookupEntry m (insertEntry n v tl) = lookupEntry m tl :=
        lookup_insert_ne m n v tl hm
      simp [insertEntry, hm, namesNodup, hl, h.1, ih h.2]

theorem wfList_insert (n : String) (v : FSTree) (l : List (String × FSTree))
    (h : wfList l = true) (hv : wfTree v = true) :
    wfList (insertEntry n v l) = true := by
  induction l with
  | nil => simp [insertEntry, wfList, hv]
  | cons hd tl ih =>
    obtain ⟨m, t⟩ := hd
    simp [wfList] at h
    by_cases hm : m = n
    · subst hm; simp [insertEntry, wfList, hv, h.2]
    · simp [insertEntry, hm, wfList, h.1, ih h.2]

theorem wfList_lookup (n : String) (l : List (String × FSTree)) (t : FSTree)
    (h : wfList l = true) (hl : lookupEntry n l = some t) : wfTree t = true := by
  induction l with
  | nil => simp [lookupEntry] at hl
  | cons hd tl ih =>
    obtain ⟨m, u⟩ := hd
    simp [wfList] at h
    by_cases hm : m = n
    · simp [lookupEntry, hm] at hl
      subst hl; exact h.1
    · simp [lookupEntry, hm] at hl
      exact ih h.2 hl

theorem lookup_pruneEntries (n : String) (s rE : List (String × FSTree))
    (h : (lookupEntry n s).isSome = true) :
    lookupEntry n (pruneEntries s rE) = lookupEntry n rE := by
  induction rE with
  | nil => simp [pruneEntries, lookupEntry]
  | cons hd tl ih =>
    obtain ⟨m, t⟩ := hd
    by_cases hm : m = n
    · subst hm
      simp [pruneEntries, List.filter_cons, h, lookupEntry]
    · by_cases hp : (lookupEntry m s).isSome
      · simpa [pruneEntries, List.filter_cons, hp, lookupEntry, hm] using ih
      · simpa [pruneEntries, List.filter_cons, hp, lookupEntry, hm] using ih

theorem namesNodup_pruneEntries (s rE : List (String × FSTree))
    (h : namesNodup rE = true) : namesNodup (pruneEntries s rE) = true := by
  induction rE with
  | nil => simp [pruneEntries, namesNodup]
  | cons hd tl ih =>
    obtain ⟨m, t⟩ := hd
    simp [namesNodup] at h
    by_cases hp : (lookupEntry m s).isSome
    · have hnone : lookupEntry m (List.filter (fun e => (lookupEntry e.1 s).isSome) tl) = none :=
        lookup_none_filter m _ tl h.1
      simp [pruneEntries, List.filter_cons, hp, namesNodup, hnone]
      simpa [pruneEntries] using ih h.2
    · simp [pruneEntries, List.filter_cons, hp]
      simpa [pruneEntries] using ih h.2

theorem wfList_pruneEntries (s rE : List (String × FSTree))
    (h : wfList rE = true) : wfList (pruneEntries s rE) = true := by
  induction rE with
  | nil => simp [pruneEntries, wfList]
  | cons hd tl ih =>
    obtain ⟨m, t⟩ := hd
    simp [wfList] at h
    by_cases hp : (lookupEntry m s).isSome
    · simp [pruneEntries, List.filter_cons, hp, wfList, h.1]
      simpa [pruneEntries] using ih h.2
    · simp [pruneEntries, List.filter_cons, hp]
      simpa [pruneEntries] using ih h.2

theorem pruneEntries_of_allPresent (s rE : List (String × FSTree))
    (h : allPresent rE s = true) : pruneEntries s rE = rE := by
  induction rE with
  | nil => simp [pruneEntries]
  | cons hd tl ih =>
    obtain ⟨m, t⟩ := hd
    simp [allPresent] at h
    simp [pruneEntries, List.filter_cons, h.1]
    simpa [pruneEntries] using ih h.2

theorem pruneOps_of_allPresent (p : List String) (s rE : List (String × FSTree))
    (h : allPresent rE s = true) : pruneOps p s rE = [] := by
  induction rE with
  | nil => simp [pruneOps]
  | cons hd tl ih =>
    obtain ⟨m, t⟩ := hd
    simp [allPresent] at h
    simp [pruneOps, h.1, ih h.2]

theorem allPresent_pruneEntries (s rE : List (String × FSTree)) :
    allPresent (pruneEntries s rE) s = true := by
  induction rE with
  | nil => simp [pruneEntries, allPresent]
  | cons hd tl ih =>
    obtain ⟨m, t⟩ := hd
    by_cases hp : (lookupEntry m s).isSome
    · simp [pruneEntries, List.filter_cons, hp, allPresent]
      simpa [pruneEntries] using ih
    · simp [pruneEntries, List.filter_cons, hp]
      simpa [pruneEntries] using ih

theorem compatibleL_nil_right (l : List (String × FSTree)) :
    compatibleL l [] = true := by
  induction l with
  | nil => simp [compatibleL]
  | cons hd tl ih =>
    obtain ⟨n, t⟩ := hd
    simp [compatibleL, lookupEntry, ih]

theorem compatibleL_congr (l r1 r2 : List (String × FSTree))
    (h : ∀ e ∈ l, lookupEntry e.1 r1 = lookupEntry e.1 r2)
    (hc : compatibleL l r1 = true) : compatibleL l r2 = true := by
  induction l with
  | nil => simp [compatibleL]
  | cons hd tl ih =>
    obtain ⟨n, t⟩ := hd
    simp only [compatibleL, Bool.and_eq_true] at hc ⊢
    have hn := h (n, t) (by simp)
    constructor
    · rw [← hn]; exact hc.1
    · exact ih (fun e he => h e (List.mem_cons_of_mem _ he)) hc.2

theorem sameForward_of_lookup (s r : List (String × FSTree)) (hnd : namesNodup s = true)
    (h : ∀ n t, lookupEntry n s = some t →
      ∃ t', lookupEntry n r = some t' ∧ sameTree t t' = true) :
    sameForward s r = true := by
  induction s with
  | nil => simp [sameForward]
  | cons hd tl ih =>
    obtain ⟨n, t⟩ := hd
    simp only [namesNodup, Bool.and_eq_true, Option.isNone_iff_eq_none] at hnd
    obtain ⟨t', ht', hs⟩ := h n t (by simp [lookupEntry])
    simp only [sameForward, Bool.and_eq_true, ht', hs]
    refine ⟨trivial, ?_⟩
    apply ih hnd.2
    intro m u hm
    apply h m u
    by_cases hmn : n = m
    · subst hmn; rw [hnd.1] at hm; cases hm
    · simpa [lookupEntry, hmn] using hm

/-! ## Convergence of a successful run on kind-compatible trees -/

mutual

/-- A sync of a well-formed source directory into a kind-compatible
well-formed replica returns without error, and its result is a full
structural-and-content mirror of the source (and is well-formed). -/
theorem syncDir_mirror (s : List (String × FSTree)) (rep : FSTree) (p : List String)
    (hwf : wfTree (.dir s) = true) (hr : wfTree rep = true)
    (hc : compatibleT (.dir s) rep = true) :
    (syncFolders p (.dir s) rep).err = none ∧
    sameTree (.dir s) (syncFolders p (.dir s) rep).tree = true ∧
    wfTree (syncFolders p (.dir s) rep).tree = true := by
  match rep with
  | .file c => simp [compatibleT] at hc
  | .dir rE =>
    simp only [wfTree, Bool.and_eq_true] at hwf hr
    simp only [compatibleT] at hc
    obtain ⟨herr, rE', htree, hnd', hwf', hmir, hunch⟩ :=
      reconcile_mirror s rE p hwf.2 hwf.1 hr.1 hr.2 hc
    simp only [syncFolders, herr, htree]
    refine ⟨trivial, ?_, ?_⟩
    · simp only [sameTree, Bool.and_eq_true]
      refine ⟨?_, allPresent_pruneEntries s rE'⟩
      apply sameForward_of_lookup s _ hwf.1
      intro n t hn
      obtain ⟨t', ht', hs⟩ := hmir n t hn
      refine ⟨t', ?_, hs⟩
      rw [lookup_pruneEntries n s rE' (by simp [hn])]
      exact ht'
    · simp only [wfTree, Bool.and_eq_true]
      exact ⟨namesNodup_pruneEntries s rE' hnd', wfList_pruneEntries s rE' hwf'⟩
termination_by (sizeOf s, 1)

/-- The reconcile loop on a kind-compatible replica directory returns without
error and a directory tree in which every source entry has a mirrored entry
and every name absent from the source is untouched. -/
theorem reconcile_mirror (s : List (String × FSTree)) (rE : List (String × FSTree))
    (p : List String)
    (hwfs : wfList s = true) (hnd : namesNodup s = true)
    (hndr : namesNodup rE = true) (hwfr : wfList rE = true)
    (hc : compatibleL s rE = true) :
    (reconcile p s (.dir rE)).err = none ∧
    ∃ rE', (reconcile p s (.dir rE)).tree = FSTree.dir rE' ∧
      namesNodup rE' = true ∧ wfList rE' = true ∧
      (∀ n t, lookupEntry n s = some t →
        ∃ t', lookupEntry n rE' = some t' ∧ sameTree t t' = true) ∧
      (∀ n, lookupEntry n s = none → lookupEntry n rE' = lookupEntry n rE) := by
  match s with
  | [] =>
    refine ⟨rfl, rE, rfl, hndr, hwfr, ?_, ?_⟩
    · intro n t hn; simp [lookupEntry] at hn
    · intro n _; rfl
  | (name, .dir d) :: rest =>
    simp only [wfList, Bool.and_eq_true] at hwfs
    simp only [namesNodup, Bool.and_eq_true, Option.isNone_iff_eq_none] at hnd
    simp only [compatibleL, Bool.and_eq_true] at hc
    have hkeys : ∀ e ∈ rest, e.1 ≠ name := lookup_none_key_ne name rest hnd.1
    cases hcl : lookupEntry name rE with
    | some child =>
      rw [hcl] at hc
      match child, hc with
      | .dir cE, hc =>
        have hwfc : wfTree (.dir cE) = true := wfList_lookup name rE _ hwfr hcl
        obtain ⟨herr, hsame, hwft⟩ :=
          syncDir_mirror d (.dir cE) (p ++ [name]) hwfs.1 hwfc
            (by simpa [compatibleT] using hc.1)
        have hnd1 : namesNodup (insertEntry name
            (syncFolders (p ++ [name]) (.dir d) (.dir cE)).tree rE) = true :=
          namesNodup_insert _ _ _ hndr
        have hwf1 : wfList (insertEntry name
            (syncFolders (p ++ [name]) (.dir d) (.dir cE)).tree rE) = true :=
          wfList_insert _ _ _ hwfr hwft
        have hc1 : compatibleL rest (insertEntry name
            (syncFolders (p ++ [name]) (.dir d) (.dir cE)).tree rE) = true := by
          apply compatibleL_congr rest rE _ _ hc.2
          intro e he
          exact (lookup_insert_ne e.1 name _ rE (hkeys e he)).symm
        obtain ⟨herr2, rE', htree2, hnd', hwf', hmir, hunch⟩ :=
          reconcile_mirror rest _ p hwfs.2 hnd.2 hnd1 hwf1 hc1
        simp only [reconcile, hcl, herr]
        refine ⟨herr2, rE', htree2, hnd', hwf', ?_, ?_⟩
        · intro n t hn
          by_cases hname : name = n
          · subst hname
            simp only [lookupEntry, if_pos rfl] at hn
            obtain rfl : FSTree.dir d = t := by injection hn
            refine ⟨(syncFolders (p ++ [name]) (.dir d) (.dir cE)).tree, ?_, hsame⟩
            rw [hunch name hnd.1]
            exact lookup_insert_self name _ rE
          · simp only [lookupEntry, if_neg hname] at hn
            exact hmir n t hn
        · intro n hn
          have hne : name ≠ n := by
            intro hh; subst hh; simp [lookupEntry] at hn
          simp only [lookupEntry, if_neg hne] at hn
          rw [hunch n hn]
          exact lookup_insert_ne n name _ rE (fun hh => hne hh.symm)
    | none =>
      have hwfc : wfTree (.dir ([] : List (String × FSTree))) = true := by
        simp [wfTree, namesNodup, wfList]
      obtain ⟨herr, hsame, hwft⟩ :=
        syncDir_mirror d (.dir []) (p ++ [name]) hwfs.1 hwfc
          (by simp [compatibleT, compatibleL_nil_right])
      have hnd1 : namesNodup (insertEntry name
          (syncFolders (p ++ [name]) (.dir d) (.dir [])).tree rE) = true :=
        namesNodup_insert _ _ _ hndr
      have hwf1 : wfList (insertEntry name
          (syncFolders (p ++ [name]) (.dir d) (.dir [])).tree rE) = true :=
        wfList_insert _ _ _ hwfr hwft
      have hc1 : compatibleL rest (insertEntry name
          (syncFolders (p ++ [name]) (.dir d) (.dir [])).tree rE) = true := by
        apply compatibleL_congr rest rE _ _ hc.2
        intro e he
        exact (lookup_insert_ne e.1 name _ rE (hkeys e he)).symm
      obtain ⟨herr2, rE', htree2, hnd', hwf', hmir, hunch⟩ :=
        reconcile_mirror rest _ p hwfs.2 hnd.2 hnd1 hwf1 hc1
      simp only [reconcile, hcl, herr]
      refine ⟨herr2, rE', htree2, hnd', hwf', ?_, ?_⟩
      · intro n t hn
        by_cases hname : name = n
        · subst hname
          simp only [lookupEntry, if_pos rfl] at hn
          obtain rfl : FSTree.dir d = t := by injection hn
          refine ⟨(syncFolders (p ++ [name]) (.dir d) (.dir [])).tree, ?_, hsame⟩
          rw [hunch name hnd.1]
          exact lookup_insert_self name _ rE
        · simp only [lookupEntry, if_neg hname] at hn
          exact hmir n t hn
      · intro n hn
        have hne : name ≠ n := by
          intro hh; subst hh; simp [lookupEntry] at hn
        simp only [lookupEntry, if_neg hne] at hn
        rw [hunch n hn]
        exact lookup_insert_ne n name _ rE (fun hh => hne hh.symm)
  | (name, .file content) :: rest =>
    simp only [wfList, Bool.and_eq_true] at hwfs
    simp only [namesNodup, Bool.and_eq_true, Option.isNone_iff_eq_none] at hnd
    simp only [compatibleL, Bool.and_eq_true] at hc
    have hkeys : ∀ e ∈ rest, e.1 ≠ name := lookup_none_key_ne name rest hnd.1
    cases hcl : lookupEntry name rE with
    | some child =>
      rw [hcl] at hc
      match child, hc with
      | .file c, hc =>
        by_cases hcc : c = content
        · subst hcc
          obtain ⟨herr2, rE', htree2, hnd', hwf', hmir, hunch⟩ :=
            reconcile_mirror rest rE p hwfs.2 hnd.2 hndr hwfr hc.2
          simp only [reconcile, hcl, if_pos rfl]
          refine ⟨herr2, rE', htree2, hnd', hwf', ?_, ?_⟩
          · intro n t hn
            by_cases hname : name = n
            · subst hname
              simp only [lookupEntry, if_pos rfl] at hn
              obtain rfl : FSTree.file c = t := by injection hn
              refine ⟨.file c, ?_, by simp [sameTree]⟩
              rw [hunch name hnd.1]
              exact hcl
            · simp only [lookupEntry, if_neg hname] at hn
              exact hmir n t hn
          · intro n hn
            have hne : name ≠ n := by
              intro hh; subst hh; simp [lookupEntry] at hn
            simp only [lookupEntry, if_neg hne] at hn
            exact hunch n hn
        · have hnd1 : namesNodup (insertEntry name (.file content) rE) = true :=
            namesNodup_insert _ _ _ hndr
          have hwf1 : wfList (insertEntry name (.file content) rE) = true :=
            wfList_insert _ _ _ hwfr (by simp [wfTree])
          have hc1 : compatibleL rest (insertEntry name (.file content) rE) = true := by
            apply compatibleL_congr rest rE _ _ hc.2
            intro e he
            exact (lookup_insert_ne e.1 name _ rE (hkeys e he)).symm
          obtain ⟨herr2, rE', htree2, hnd', hwf', hmir, hunch⟩ :=
            reconcile_mirror rest _ p hwfs.2 hnd.2 hnd1 hwf1 hc1
          simp only [reconcile, hcl, if_neg hcc]
          refine ⟨herr2, rE', htree2, hnd', hwf', ?_, ?_⟩
          · intro n t hn
            by_cases hname : name = n
            · subst hname
              simp only [lookupEntry, if_pos rfl] at hn
              obtain rfl : FSTree.file content = t := by injection hn
              refine ⟨.file content, ?_, by simp [sameTree]⟩
              rw [hunch name hnd.1]
              exact lookup_insert_self name _ rE
            · simp only [lookupEntry, if_neg hname] at hn
              exact hmir n t hn
          · intro n hn
            have hne : name ≠ n := by
              intro hh; subst hh; simp [lookupEntry] at hn
            simp only [lookupEntry, if_neg hne] at hn
            rw [hunch n hn]
            exact lookup_insert_ne n name _ rE (fun hh => hne hh.symm)
    | none =>
      have hnd1 : namesNodup (insertEntry name (.file content) rE) = true :=
        namesNodup_insert _ _ _ hndr
      have hwf1 : wfList (insertEntry name (.file content) rE) = true :=
        wfList_insert _ _ _ hwfr (by simp [wfTree])
      have hc1 : compatibleL rest (insertEntry name (.file content) rE) = true := by
        apply compatibleL_congr rest rE _ _ hc.2
        intro e he
        exact (lookup_insert_ne e.1 name _ rE (hkeys e he)).symm
      obtain ⟨herr2, rE', htree2, hnd', hwf', hmir, hunch⟩ :=
        reconcile_mirror rest _ p hwfs.2 hnd.2 hnd1 hwf1 hc1
      simp only [reconcile, hcl]
      refine ⟨herr2, rE', htree2, hnd', hwf', ?_, ?_⟩
      · intro n t hn
        by_cases hname : name = n
        · subst hname
          simp only [lookupEntry, if_pos rfl] at hn
          obtain rfl : FSTree.file content = t := by injection hn
          refine ⟨.file content, ?_, by simp [sameTree]⟩
          rw [hunch name hnd.1]
          exact lookup_insert_self name _ rE
        · simp only [lookupEntry, if_neg hname] at hn
          exact hmir n t hn
      · intro n hn
        have hne : name ≠ n := by
          intro hh; subst hh; simp [lookupEntry] at hn
        simp only [lookupEntry, if_neg hne] at hn
        rw [hunch n hn]
        exact lookup_insert_ne n name _ rE (fun hh => hne hh.symm)
termination_by (sizeOf s, 0)

end

/-! ## A run over a perfect mirror performs no mutating call -/

mutual

/-- Syncing a source directory into a replica that already mirrors it
performs no mutating filesystem call, raises no error, and leaves the replica
exactly as it was. -/
theorem sync_noop (s : List (String × FSTree)) (rep : FSTree) (p : List String)
    (h : sameTree (.dir s) rep = true) :
    syncFolders p (.dir s) rep = ⟨rep, [], none⟩ := by
  match rep with
  | .file c => simp [sameTree] at h
  | .dir rE =>
    simp only [sameTree, Bool.and_eq_true] at h
    have hrec := reconcile_noop s rE p h.1
    simp only [syncFolders, hrec]
    simp [pruneEntries_of_allPresent s rE h.2, pruneOps_of_allPresent p s rE h.2]
termination_by (sizeOf s, 1)

/-- The reconcile loop over a replica listing that already mirrors every
source entry is the identity and emits no mutating call. -/
theorem reconcile_noop (s rE : List (String × FSTree)) (p : List String)
    (h : sameForward s rE = true) :
    reconcile p s (.dir rE) = ⟨.dir rE, [], none⟩ := by
  match s with
  | [] => rfl
  | (name, .dir d) :: rest =>
    simp only [sameForward, Bool.and_eq_true] at h
    obtain ⟨h1, h2⟩ := h
    cases hcl : lookupEntry name rE with
    | none => rw [hcl] at h1; simp at h1
    | some child =>
      rw [hcl] at h1
      match child, h1 with
      | .dir cE, h1 =>
        have hchild := sync_noop d (.dir cE) (p ++ [name]) (by simpa using h1)
        have hins : insertEntry name (FSTree.dir cE) rE = rE :=
          insert_lookup_eq name _ rE hcl
        have hrest := reconcile_noop rest rE p h2
        simp only [reconcile, hcl, hchild, hins, hrest, List.nil_append]
  | (name, .file content) :: rest =>
    simp only [sameForward, Bool.and_eq_true] at h
    obtain ⟨h1, h2⟩ := h
    cases hcl : lookupEntry name rE with
    | none => rw [hcl] at h1; simp at h1
    | some child =>
      rw [hcl] at h1
      match child, h1 with
      | .file c, h1 =>
        have hcc : c = content := by
          have : (content == c) = true := by simpa [sameTree] using h1
          exact (eq_of_beq this).symm
        have hrest := reconcile_noop rest rE p h2
        simp only [reconcile, hcl, if_pos hcc, hrest]
termination_by (sizeOf s, 0)

end

/-! ## Frame property: every mutating call targets the replica tree -/

theorem pruneOps_writes_replica (p : List String) (s : List (String × FSTree))
    (l : List (String × FSTree)) :
    ∀ op ∈ pruneOps p s l, op.writesReplicaOnly = true := by
  induction l with
  | nil => simp [pruneOps]
  | cons hd tl ih =>
    obtain ⟨n, t⟩ := hd
    intro op hop
    by_cases hp : (lookupEntry n s).isSome
    · exact ih op (by simpa [pruneOps, hp] using hop)
    · simp only [pruneOps, if_neg hp, List.mem_cons] at hop
      rcases hop with h1 | h2
      · subst h1
        cases t <;> simp [FsOp.writesReplicaOnly]
      · exact ih op h2

mutual

/-- Every mutating filesystem call made by `sync_folders` creates, writes or
deletes under the replica root only; a copy reads from the source root. -/
theorem sync_writes_replica (src rep : FSTree) (p : List String) :
    ∀ op ∈ (syncFolders p src rep).ops, op.writesReplicaOnly = true := by
  match src with
  | .file c => intro op hop; simp [syncFolders] at hop
  | .dir s =>
    intro op hop
    simp only [syncFolders] at hop
    cases hre : (reconcile p s rep).err with
    | some e =>
      simp only [hre] at hop
      exact reconcile_writes_replica s rep p op hop
    | none =>
      simp only [hre] at hop
      cases htr : (reconcile p s rep).tree with
      | file c =>
        simp only [htr] at hop
        exact reconcile_writes_replica s rep p op hop
      | dir rE =>
        simp only [htr, List.mem_append] at hop
        rcases hop with h1 | h2
        · exact reconcile_writes_replica s rep p op h1
        · exact pruneOps_writes_replica p s rE op h2
termination_by (sizeOf src, 1)

/-- Every mutating call made by the reconcile loop targets the replica root. -/
theorem reconcile_writes_replica (s : List (String × FSTree)) (rep : FSTree)
    (p : List String) :
    ∀ op ∈ (reconcile p s rep).ops, op.writesReplicaOnly = true := by
  match s with
  | [] => intro op hop; simp [reconcile] at hop
  | (name, .dir d) :: rest =>
    match rep with
    | .file c => intro op hop; simp [reconcile] at hop
    | .dir rE =>
      intro op hop
      simp only [reconcile] at hop
      cases hcl : lookupEntry name rE with
      | some child =>
        simp only [hcl] at hop
        cases herr : (syncFolders (p ++ [name]) (.dir d) child).err with
        | some e =>
          simp only [herr] at hop
          exact sync_writes_replica (.dir d) child (p ++ [name]) op hop
        | none =>
          simp only [herr, List.mem_append] at hop
          rcases hop with h1 | h2
          · exact sync_writes_replica (.dir d) child (p ++ [name]) op h1
          · exact reconcile_writes_replica rest _ p op h2
      | none =>
        simp only [hcl] at hop
        cases herr : (syncFolders (p ++ [name]) (.dir d) (.dir [])).err with
        | some e =>
          simp only [herr, List.mem_cons] at hop
          rcases hop with h1 | h2
          · subst h1; simp [FsOp.writesReplicaOnly]
          · exact sync_writes_replica (.dir d) (.dir []) (p ++ [name]) op h2
        | none =>
          simp only [herr, List.mem_cons, List.mem_append] at hop
          rcases hop with h1 | h2 | h3
          · subst h1; simp [FsOp.writesReplicaOnly]
          · exact sync_writes_replica (.dir d) (.dir []) (p ++ [name]) op h2
          · exact reconcile_writes_replica rest _ p op h3
  | (name, .file content) :: rest =>
    match rep with
    | .file c => intro op hop; simp [reconcile] at hop
    | .dir rE =>
      intro op hop
      simp only [reconcile] at hop
      cases hcl : lookupEntry name rE with
      | none =>
        simp only [hcl, List.mem_cons] at hop
        rcases hop with h1 | h2
        · subst h1; simp [FsOp.writesReplicaOnly]
        · exact reconcile_writes_replica rest _ p op h2
      | some child =>
        match child with
        | .file c =>
          simp only [hcl] at hop
          by_cases hcc : c = content
          · rw [if_pos hcc] at hop
            exact reconcile_writes_replica rest _ p op hop
          · rw [if_neg hcc] at hop
            simp only [List.mem_cons] at hop
            rcases hop with h1 | h2
            · subst h1; simp [FsOp.writesReplicaOnly]
            · exact reconcile_writes_replica rest _ p op h2
        | .dir dE =>
          simp only [hcl] at hop
          cases hdl : lookupEntry name dE with
          | some u =>
            match u with
            | .dir _ =>
              simp only [hdl] at hop
              simp at hop
            | .file c2 =>
              simp only [hdl, List.mem_cons] at hop
              rcases hop with h1 | h2
              · subst h1; simp [FsOp.writesReplicaOnly]
              · exact reconcile_writes_replica rest _ p op h2
          | none =>
            simp only [hdl, List.mem_cons] at hop
            rcases hop with h1 | h2
            · subst h1; simp [FsOp.writesReplicaOnly]
            · exact reconcile_writes_replica rest _ p op h2
termination_by (sizeOf s, 0)

end

/-! ## Deletion safety: nothing that exists in the source is ever deleted -/

theorem pruneOps_shape (p : List String) (s l : List (String × FSTree)) :
    ∀ op ∈ pruneOps p s l, ∃ n, op.path = p ++ [n] ∧ lookupEntry n s = none := by
  induction l with
  | nil => simp [pruneOps]
  | cons hd tl ih =>
    obtain ⟨n, t⟩ := hd
    intro op hop
    by_cases hp : (lookupEntry n s).isSome
    · exact ih op (by simpa [pruneOps, hp] using hop)
    · simp only [pruneOps, if_neg hp, List.mem_cons] at hop
      rcases hop with h1 | h2
      · refine ⟨n, ?_, Option.not_isSome_iff_eq_none.mp hp⟩
        subst h1
        cases t <;> simp [FsOp.path]
      · exact ih op h2

mutual

/-- Every deletion `sync_folders` performs targets a path that does not exist
in the source tree: an entry still present in the source is never removed. -/
theorem sync_removal_safe (src rep : FSTree) (p : List String)
    (hwf : wfTree src = true) :
    ∀ op ∈ (syncFolders p src rep).ops, op.isRemoval = true →
      ∃ m q, op.path = p ++ m :: q ∧ pathLookup src (m :: q) = none := by
  match src with
  | .file c => intro op hop; simp [syncFolders] at hop
  | .dir s =>
    simp only [wfTree, Bool.and_eq_true] at hwf
    intro op hop hrem
    simp only [syncFolders] at hop
    cases hre : (reconcile p s rep).err with
    | some e =>
      simp only [hre] at hop
      obtain ⟨m, u, q, hlk, hpath, hnone⟩ :=
        reconcile_removal_safe s rep p hwf.2 hwf.1 op hop hrem
      exact ⟨m, q, hpath, by simp [pathLookup, hlk, hnone]⟩
    | none =>
      simp only [hre] at hop
      cases htr : (reconcile p s rep).tree with
      | file c =>
        simp only [htr] at hop
        obtain ⟨m, u, q, hlk, hpath, hnone⟩ :=
          reconcile_removal_safe s rep p hwf.2 hwf.1 op hop hrem
        exact ⟨m, q, hpath, by simp [pathLookup, hlk, hnone]⟩
      | dir rE =>
        simp only [htr, List.mem_append] at hop
        rcases hop with h1 | h2
        · obtain ⟨m, u, q, hlk, hpath, hnone⟩ :=
            reconcile_removal_safe s rep p hwf.2 hwf.1 op h1 hrem
          exact ⟨m, q, hpath, by simp [pathLookup, hlk, hnone]⟩
        · obtain ⟨n, hpath, hnone⟩ := pruneOps_shape p s rE op h2
          exact ⟨n, [], hpath, by simp [pathLookup, hnone]⟩
termination_by (sizeOf src, 1)

/-- Every deletion performed while reconciling a source listing lies below
some source entry of that listing, at a relative path absent from it. -/
theorem reconcile_removal_safe (s : List (String × FSTree)) (rep : FSTree)
    (p : List String) (hwfs : wfList s = true) (hnd : namesNodup s = true) :
    ∀ op ∈ (reconcile p s rep).ops, op.isRemoval = true →
      ∃ m u q, lookupEntry m s = some u ∧ op.path = p ++ m :: q ∧
        pathLookup u q = none := by
  match s with
  | [] => intro op hop; simp [reconcile] at hop
  | (name, .dir d) :: rest =>
    simp only [wfList, Bool.and_eq_true] at hwfs
    simp only [namesNodup, Bool.and_eq_true, Option.isNone_iff_eq_none] at hnd
    match rep with
    | .file c => intro op hop; simp [reconcile] at hop
    | .dir rE =>
      intro op hop hrem
      simp only [reconcile] at hop
      have hchild : ∀ child, op ∈ (syncFolders (p ++ [name]) (.dir d) child).ops →
          ∃ m u q, lookupEntry m ((name, FSTree.dir d) :: rest) = some u ∧
            op.path = p ++ m :: q ∧ pathLookup u q = none := by
        intro child hmem
        obtain ⟨m0, q0, hpath, hnone⟩ :=
          sync_removal_safe (.dir d) child (p ++ [name]) hwfs.1 op hmem hrem
        refine ⟨name, .dir d, m0 :: q0, by simp [lookupEntry], ?_, hnone⟩
        rw [hpath]; simp
      have hrest : ∀ rep2, op ∈ (reconcile p rest rep2).ops →
          ∃ m u q, lookupEntry m ((name, FSTree.dir d) :: rest) = some u ∧
            op.path = p ++ m :: q ∧ pathLookup u q = none := by
        intro rep2 hmem
        obtain ⟨m, u, q, hlk, hpath, hnone⟩ :=
          reconcile_removal_safe rest rep2 p hwfs.2 hnd.2 op hmem hrem
        have hne : ¬ name = m := by
          intro hh; subst hh; rw [hnd.1] at hlk; cases hlk
        exact ⟨m, u, q, by simp [lookupEntry, hne, hlk], hpath, hnone⟩
      cases hcl : lookupEntry name rE with
      | some child =>
        simp only [hcl] at hop
        cases herr : (syncFolders (p ++ [name]) (.dir d) child).err with
        | some e =>
          simp only [herr] at hop
          exact hchild child hop
        | none =>
          simp only [herr, List.mem_append] at hop
          rcases hop with h1 | h2
          · exact hchild child h1
          · exact hrest _ h2
      | none =>
        simp only [hcl] at hop
        cases herr : (syncFolders (p ++ [name]) (.dir d) (.dir [])).err with
        | some e =>
          simp only [herr, List.mem_cons] at hop
          rcases hop with h1 | h2
          · subst h1; simp [FsOp.isRemoval] at hrem
          · exact hchild (.dir []) h2
        | none =>
          simp only [herr, List.mem_cons, List.mem_append] at hop
          rcases hop with h1 | h2 | h3
          · subst h1; simp [FsOp.isRemoval] at hrem
          · exact hchild (.dir []) h2
          · exact hrest _ h3
  | (name, .file content) :: rest =>
    simp only [wfList, Bool.and_eq_true] at hwfs
    simp only [namesNodup, Bool.and_eq_true, Option.isNone_iff_eq_none] at hnd
    match rep with
    | .file c => intro op hop; simp [reconcile] at hop
    | .dir rE =>
      intro op hop hrem
      simp only [reconcile] at hop
      have hrest : ∀ rep2, op ∈ (reconcile p rest rep2).ops →
          ∃ m u q, lookupEntry m ((name, FSTree.file content) :: rest) = some u ∧
            op.path = p ++ m :: q ∧ pathLookup u q = none := by
        intro rep2 hmem
        obtain ⟨m, u, q, hlk, hpath, hnone⟩ :=
          reconcile_removal_safe rest rep2 p hwfs.2 hnd.2 op hmem hrem
        have hne : ¬ name = m := by
          intro hh; subst hh; rw [hnd.1] at hlk; cases hlk
        exact ⟨m, u, q, by simp [lookupEntry, hne, hlk], hpath, hnone⟩
      cases hcl : lookupEntry name rE with
      | none =>
        simp only [hcl, List.mem_cons] at hop
        rcases hop with h1 | h2
        · subst h1; simp [FsOp.isRemoval] at hrem
        · exact hrest _ h2
      | some child =>
        match child with
        | .file c =>
          simp only [hcl] at hop
          by_cases hcc : c = content
          · rw [if_pos hcc] at hop
            exact hrest _ hop
          · rw [if_neg hcc] at hop
            simp only [List.mem_cons] at hop
            rcases hop with h1 | h2
            · subst h1; simp [FsOp.isRemoval] at hrem
            · exact hrest _ h2
        | .dir dE =>
          simp only [hcl] at hop
          cases hdl : lookupEntry name dE with
          | some u =>
            match u with
            | .dir _ =>
              simp only [hdl] at hop
              simp at hop
            | .file c2 =>
              simp only [hdl, List.mem_cons] at hop
              rcases hop with h1 | h2
              · subst h1; simp [FsOp.isRemoval] at hrem
              · exact hrest _ h2
          | none =>
            simp only [hdl, List.mem_cons] at hop
            rcases hop with h1 | h2
            · subst h1; simp [FsOp.isRemoval] at hrem
            · exact hrest _ h2
termination_by (sizeOf s, 0)

end

/-! ## Kind-mismatch behaviour -/

/-- Recursing with a regular file at the replica path always raises: at the
prune pass's `os.listdir` when the source directory is empty, at the child
`Path.mkdir` or `shutil.copy2` otherwise.  The file is left untouched and no
mutating call is made. -/
theorem sync_into_file (p : List String) (d : List (String × FSTree)) (c : List Nat) :
    ∃ e, syncFolders p (.dir d) (.file c) = ⟨.file c, [], some e⟩ ∧
      (e = SyncErr.listReplicaNotDir ∨ e = SyncErr.mkdirUnderFile ∨
        e = SyncErr.copyUnderFile) := by
  match d with
  | [] =>
    exact ⟨.listReplicaNotDir, by simp [syncFolders, reconcile], Or.inl rfl⟩
  | (m, .dir dd) :: rest =>
    exact ⟨.mkdirUnderFile, by simp [syncFolders, reconcile], Or.inr (Or.inl rfl)⟩
  | (m, .file fc) :: rest =>
    exact ⟨.copyUnderFile, by simp [syncFolders, reconcile], Or.inr (Or.inr rfl)⟩

/-- Claim C9 (amended): when the source holds a directory `name` and the
replica path `name` holds a regular file, `sync_folders` performs no mutating
call, raises an error — `listReplicaNotDir` when the source directory is
empty, the mkdir/copy `NotADirectoryError` otherwise — and returns with the
replica listing unchanged, still holding the mismatched file. -/
theorem sync_dir_over_file_raises_keeps_file (p : List String) (name : String)
    (d rest rE : List (String × FSTree)) (c : List Nat)
    (h : lookupEntry name rE = some (.file c)) :
    ∃ e, syncFolders p (.dir ((name, FSTree.dir d) :: rest)) (.dir rE) =
        ⟨.dir rE, [], some e⟩ ∧
      (e = SyncErr.listReplicaNotDir ∨ e = SyncErr.mkdirUnderFile ∨
        e = SyncErr.copyUnderFile) := by
  obtain ⟨e, hrun, hcases⟩ := sync_into_file (p ++ [name]) d c
  have hins : insertEntry name (FSTree.file c) rE = rE := insert_lookup_eq name _ rE h
  have hrec : reconcile p ((name, FSTree.dir d) :: rest) (.dir rE) =
      ⟨.dir rE, [], some e⟩ := by
    simp only [reconcile, h]
    simp [hrun, hins]
  refine ⟨e, ?_, hcases⟩
  simp only [syncFolders]
  simp [hrec]

/-- Witness for `sync_dir_over_file_raises_keeps_file` at a concrete
mismatched pair of trees. -/
theorem sync_dir_over_file_raises_keeps_file_witness :
    ∃ e, syncFolders [] (.dir [("e", FSTree.dir [])]) (.dir [("e", FSTree.file [7])]) =
        ⟨.dir [("e", FSTree.file [7])], [], some e⟩ ∧
      (e = SyncErr.listReplicaNotDir ∨ e = SyncErr.mkdirUnderFile ∨
        e = SyncErr.copyUnderFile) :=
  sync_dir_over_file_raises_keeps_file [] "e" [] [] [("e", FSTree.file [7])] [7] rfl

/-- Refutation of claim C9 as stated: with a non-empty mismatched source
directory the error is raised by the failing `shutil.copy2` of its child
(`NotADirectoryError` at the copy call), not by `os.listdir` on the replica
path. -/
theorem dir_over_file_error_not_at_listing :
    syncFolders [] (.dir [("e", FSTree.dir [("f", FSTree.file [])])])
        (.dir [("e", FSTree.file [7])]) =
      ⟨.dir [("e", FSTree.file [7])], [], some SyncErr.copyUnderFile⟩ ∧
    SyncErr.copyUnderFile ≠ SyncErr.listReplicaNotDir := by
  exact ⟨rfl, by decide⟩

/-- Claim C10 (amended): when the source holds a regular file `name` and the
replica path `name` holds a directory (whose own entry `name`, if present, is
not itself a directory), `sync_folders` succeeds, never replaces or removes
the replica directory, copies the source file into it at `name/name`, and the
prune pass retains the directory because `name` exists in the source. -/
theorem sync_file_over_dir_copies_inside_and_retains (p : List String) (name : String)
    (content : List Nat) (rE dE : List (String × FSTree))
    (h1 : lookupEntry name rE = some (.dir dE))
    (h2 : ∀ u, lookupEntry name dE = some u → ∃ c2, u = FSTree.file c2) :
    (syncFolders p (.dir [(name, FSTree.file content)]) (.dir rE)).err = none ∧
    (∃ rE'', (syncFolders p (.dir [(name, FSTree.file content)]) (.dir rE)).tree =
        .dir rE'' ∧
      lookupEntry name rE'' =
        some (.dir (insertEntry name (.file content) dE))) ∧
    lookupEntry name (insertEntry name (.file content) dE) = some (.file content) ∧
    FsOp.copyFile .source (p ++ [name]) .replica (p ++ [name]) ∈
      (syncFolders p (.dir [(name, FSTree.file content)]) (.dir rE)).ops := by
  have hrec : reconcile p [(name, FSTree.file content)] (.dir rE) =
      ⟨.dir (insertEntry name (.dir (insertEntry name (.file content) dE)) rE),
        [FsOp.copyFile .source (p ++ [name]) .replica (p ++ [name])], none⟩ := by
    cases hdl : lookupEntry name dE with
    | none => simp [reconcile, h1, hdl]
    | some u =>
      obtain ⟨c2, rfl⟩ := h2 u hdl
      simp [reconcile, h1, hdl]
  have hlk : lookupEntry name
      (insertEntry name (.dir (insertEntry name (.file content) dE)) rE) =
      some (.dir (insertEntry name (.file content) dE)) :=
    lookup_insert_self name _ rE
  refine ⟨?_, ⟨pruneEntries [(name, FSTree.file content)]
      (insertEntry name (.dir (insertEntry name (.file content) dE)) rE), ?_, ?_⟩,
    lookup_insert_self name _ dE, ?_⟩
  · simp only [syncFolders]; simp [hrec]
  · simp only [syncFolders]; simp [hrec]
  · rw [lookup_pruneEntries name _ _ (by simp [lookupEntry])]
    exact hlk
  · simp only [syncFolders]; simp [hrec]

/-- Witness for `sync_file_over_dir_copies_inside_and_retains` at a concrete
pair of trees (source file `e`, replica directory `e` holding a stale file). -/
theorem sync_file_over_dir_copies_inside_and_retains_witness :
    (syncFolders [] (.dir [("e", FSTree.file [120])])
        (.dir [("e", FSTree.dir [("old", FSTree.file [9])])])).err = none ∧
    (∃ rE'', (syncFolders [] (.dir [("e", FSTree.file [120])])
        (.dir [("e", FSTree.dir [("old", FSTree.file [9])])])).tree = .dir rE'' ∧
      lookupEntry "e" rE'' =
        some (.dir (insertEntry "e" (.file [120]) [("old", FSTree.file [9])]))) ∧
    lookupEntry "e" (insertEntry "e" (.file [120]) [("old", FSTree.file [9])]) =
      some (.file [120]) ∧
    FsOp.copyFile .source ["e"] .replica ["e"] ∈
      (syncFolders [] (.dir [("e", FSTree.file [120])])
        (.dir [("e", FSTree.dir [("old", FSTree.file [9])])])).ops := by
  have := sync_file_over_dir_copies_inside_and_retains [] "e" [120]
    [("e", FSTree.dir [("old", FSTree.file [9])])] [("old", FSTree.file [9])]
    rfl (by intro u hu; simp [lookupEntry] at hu)
  simpa using this

/-- Refutation of claim C10 as stated: when the replica directory itself
contains a directory named like the entry, the retargeted copy destination is
a directory, `shutil.copy2` raises `IsADirectoryError`, and no file is placed
at `replica/e/e`. -/
theorem file_over_dir_nested_dir_errors :
    syncFolders [] (.dir [("e", FSTree.file [120])])
        (.dir [("e", FSTree.dir [("e", FSTree.dir [])])]) =
      ⟨.dir [("e", FSTree.dir [("e", FSTree.dir [])])], [], some SyncErr.copyToDir⟩ := by
  rfl

/-! ## Claim theorems -/

/-- Claim C1 (amended): on well-formed trees with no file-vs-directory kind
mismatch at any path present in both, `sync_folders` returns without error and
a full recursive structural-and-content comparison of source and replica then
reports no differences. -/
theorem sync_converges_of_compatible (s rE : List (String × FSTree)) (p : List String)
    (hws : wfTree (.dir s) = true) (hwr : wfTree (.dir rE) = true)
    (hc : compatibleT (.dir s) (.dir rE) = true) :
    (syncFolders p (.dir s) (.dir rE)).err = none ∧
    sameTree (.dir s) (syncFolders p (.dir s) (.dir rE)).tree = true :=
  ⟨(syncDir_mirror s _ p hws hwr hc).1, (syncDir_mirror s _ p hws hwr hc).2.1⟩

/-- Witness for `sync_converges_of_compatible` at a concrete diverged pair. -/
theorem sync_converges_of_compatible_witness :
    (syncFolders [] (.dir [("a", FSTree.dir [("b", FSTree.file [1])]), ("c", FSTree.file [2])])
      (.dir [("x", FSTree.file [3])])).err = none ∧
    sameTree (.dir [("a", FSTree.dir [("b", FSTree.file [1])]), ("c", FSTree.file [2])])
      (syncFolders [] (.dir [("a", FSTree.dir [("b", FSTree.file [1])]), ("c", FSTree.file [2])])
        (.dir [("x", FSTree.file [3])])).tree = true :=
  sync_converges_of_compatible
    [("a", FSTree.dir [("b", FSTree.file [1])]), ("c", FSTree.file [2])]
    [("x", FSTree.file [3])] [] rfl rfl rfl

/-- Refutation of claim C1 as stated: with a source file `e` and a replica
directory `e`, `sync_folders` returns without error, yet the replica does not
mirror the source (the comparison reports a difference at `e`). -/
theorem sync_success_without_convergence :
    (syncFolders [] (.dir [("e", FSTree.file [120])]) (.dir [("e", FSTree.dir [])])).err =
      none ∧
    sameTree (.dir [("e", FSTree.file [120])])
      (syncFolders [] (.dir [("e", FSTree.file [120])]) (.dir [("e", FSTree.dir [])])).tree =
      false :=
  ⟨rfl, rfl⟩

/-- Claim C2: in the reconcile pass a source file entry is copied to the
corresponding replica path exactly when that path does not exist or its byte
content differs (byte-list equality, the embedding of
`filecmp.cmp(..., shallow=False)`); the copy overwrites the entry, and a
byte-equal replica file suppresses the copy entirely. -/
theorem reconcile_copies_iff_missing_or_differs (p : List String) (name : String)
    (content : List Nat) (rest rE : List (String × FSTree)) :
    (lookupEntry name rE = none →
      reconcile p ((name, FSTree.file content) :: rest) (.dir rE) =
        ⟨(reconcile p rest (.dir (insertEntry name (.file content) rE))).tree,
          FsOp.copyFile .source (p ++ [name]) .replica (p ++ [name]) ::
            (reconcile p rest (.dir (insertEntry name (.file content) rE))).ops,
          (reconcile p rest (.dir (insertEntry name (.file content) rE))).err⟩) ∧
    (∀ c, lookupEntry name rE = some (.file c) → c ≠ content →
      reconcile p ((name, FSTree.file content) :: rest) (.dir rE) =
        ⟨(reconcile p rest (.dir (insertEntry name (.file content) rE))).tree,
          FsOp.copyFile .source (p ++ [name]) .replica (p ++ [name]) ::
            (reconcile p rest (.dir (insertEntry name (.file content) rE))).ops,
          (reconcile p rest (.dir (insertEntry name (.file content) rE))).err⟩) ∧
    (∀ c, lookupEntry name rE = some (.file c) → c = content →
      reconcile p ((name, FSTree.file content) :: rest) (.dir rE) =
        reconcile p rest (.dir rE)) := by
  refine ⟨?_, ?_, ?_⟩
  · intro h
    simp [reconcile, h]
  · intro c h hne
    simp [reconcile, h, hne]
  · intro c h heq
    simp [reconcile, h, heq]

/-- Witness for `reconcile_copies_iff_missing_or_differs`: missing entry and
byte-different entry are copied, a byte-equal entry is not. -/
theorem reconcile_copies_iff_missing_or_differs_witness :
    (reconcile [] [("a", FSTree.file [1])] (.dir []) =
      ⟨.dir [("a", FSTree.file [1])], [FsOp.copyFile .source ["a"] .replica ["a"]], none⟩) ∧
    (reconcile [] [("a", FSTree.file [1])] (.dir [("a", FSTree.file [2])]) =
      ⟨.dir [("a", FSTree.file [1])], [FsOp.copyFile .source ["a"] .replica ["a"]], none⟩) ∧
    (reconcile [] [("a", FSTree.file [1])] (.dir [("a", FSTree.file [1])]) =
      reconcile [] [] (.dir [("a", FSTree.file [1])])) := by
  refine ⟨?_, ?_, ?_⟩
  · exact (reconcile_copies_iff_missing_or_differs [] "a" [1] [] []).1 rfl
  · exact (reconcile_copies_iff_missing_or_differs [] "a" [1] []
      [("a", FSTree.file [2])]).2.1 [2] rfl (by decide)
  · exact (reconcile_copies_iff_missing_or_differs [] "a" [1] []
      [("a", FSTree.file [1])]).2.2 [1] rfl rfl

/-- Claim C3: the ops of a `sync_folders` call decompose as the reconcile
pass's ops (which contain all recursive descendants' work, prunes included)
followed by this level's prune deletions; and every deletion in the whole run
targets a path that does not exist in the source tree, so an entry still
present in the source is never deleted at any point of the cycle. -/
theorem prune_after_reconcile_and_never_deletes_source (s : List (String × FSTree))
    (rep : FSTree) (p : List String) (hwf : wfTree (.dir s) = true) :
    ((reconcile p s rep).err = none →
      ∀ rE', (reconcile p s rep).tree = FSTree.dir rE' →
        (syncFolders p (.dir s) rep).ops = (reconcile p s rep).ops ++ pruneOps p s rE') ∧
    (∀ op ∈ (syncFolders p (.dir s) rep).ops, op.isRemoval = true →
      ∃ m q, op.path = p ++ m :: q ∧ pathLookup (.dir s) (m :: q) = none) := by
  constructor
  · intro herr rE' htr
    simp [syncFolders, herr, htr]
  · exact sync_removal_safe (.dir s) rep p hwf

/-- Witness for `prune_after_reconcile_and_never_deletes_source` at a concrete
replica holding one stale entry. -/
theorem prune_after_reconcile_and_never_deletes_source_witness :
    wfTree (.dir [("keep", FSTree.file [1])]) = true ∧
    (((reconcile [] [("keep", FSTree.file [1])]
        (.dir [("keep", FSTree.file [1]), ("stale", FSTree.file [2])])).err = none →
      ∀ rE', (reconcile [] [("keep", FSTree.file [1])]
          (.dir [("keep", FSTree.file [1]), ("stale", FSTree.file [2])])).tree =
          FSTree.dir rE' →
        (syncFolders [] (.dir [("keep", FSTree.file [1])])
            (.dir [("keep", FSTree.file [1]), ("stale", FSTree.file [2])])).ops =
          (reconcile [] [("keep", FSTree.file [1])]
            (.dir [("keep", FSTree.file [1]), ("stale", FSTree.file [2])])).ops ++
            pruneOps [] [("keep", FSTree.file [1])] rE') ∧
    (∀ op ∈ (syncFolders [] (.dir [("keep", FSTree.file [1])])
        (.dir [("keep", FSTree.file [1]), ("stale", FSTree.file [2])])).ops,
      op.isRemoval = true →
        ∃ m q, op.path = [] ++ m :: q ∧
          pathLookup (.dir [("keep", FSTree.file [1])]) (m :: q) = none)) :=
  ⟨rfl, prune_after_reconcile_and_never_deletes_source [("keep", FSTree.file [1])]
    (.dir [("keep", FSTree.file [1]), ("stale", FSTree.file [2])]) [] rfl⟩

/-- Claim C4 (amended): on well-formed, kind-compatible trees a second
`sync_folders` call over the result of a successful first call performs zero
mutating filesystem calls, raises no error, and leaves the replica unchanged. -/
theorem sync_idempotent_of_compatible (s rE : List (String × FSTree)) (p : List String)
    (hws : wfTree (.dir s) = true) (hwr : wfTree (.dir rE) = true)
    (hc : compatibleT (.dir s) (.dir rE) = true) :
    syncFolders p (.dir s) (syncFolders p (.dir s) (.dir rE)).tree =
      ⟨(syncFolders p (.dir s) (.dir rE)).tree, [], none⟩ :=
  sync_noop s _ p (syncDir_mirror s _ p hws hwr hc).2.1

/-- Witness for `sync_idempotent_of_compatible`: the second run over the
synchronized replica is a strict no-op. -/
theorem sync_idempotent_of_compatible_witness :
    syncFolders [] (.dir [("a", FSTree.dir [("b", FSTree.file [1])])])
        (syncFolders [] (.dir [("a", FSTree.dir [("b", FSTree.file [1])])])
          (.dir [("x", FSTree.file [3])])).tree =
      ⟨(syncFolders [] (.dir [("a", FSTree.dir [("b", FSTree.file [1])])])
          (.dir [("x", FSTree.file [3])])).tree, [], none⟩ :=
  sync_idempotent_of_compatible [("a", FSTree.dir [("b", FSTree.file [1])])]
    [("x", FSTree.file [3])] [] rfl rfl rfl

/-- Refutation of claim C4 as stated: after a successful first sync of a
source file `e` against a replica directory `e`, an immediate second call with
nothing changed still performs a mutating `shutil.copy2` call. -/
theorem sync_twice_not_noop :
    (syncFolders [] (.dir [("e", FSTree.file [1])]) (.dir [("e", FSTree.dir [])])).err =
      none ∧
    (syncFolders [] (.dir [("e", FSTree.file [1])])
      (syncFolders [] (.dir [("e", FSTree.file [1])])
        (.dir [("e", FSTree.dir [])])).tree).ops ≠ [] := by
  refine ⟨rfl, ?_⟩
  have h : (syncFolders [] (.dir [("e", FSTree.file [1])])
      (syncFolders [] (.dir [("e", FSTree.file [1])])
        (.dir [("e", FSTree.dir [])])).tree).ops =
      [FsOp.copyFile .source ["e"] .replica ["e"]] := rfl
  rw [h]
  simp

/-- Claim C5: every mutating filesystem call of any `sync_folders` run targets
the replica tree — directory creation, file writes and deletions all carry the
replica root, and the only source-root access is the read side of a copy; the
source tree is never mutated. -/
theorem sync_mutates_only_replica (src rep : FSTree) (p : List String) :
    ∀ op ∈ (syncFolders p src rep).ops, op.writesReplicaOnly = true :=
  sync_writes_replica src rep p

/-- Witness for `sync_mutates_only_replica` on a concrete run that deletes a
stale replica file. -/
theorem sync_mutates_only_replica_witness :
    (FsOp.removeFile .replica ["stale"]).writesReplicaOnly = true :=
  sync_mutates_only_replica (.dir []) (.dir [("stale", FSTree.file [2])]) []
    (FsOp.removeFile .replica ["stale"]) (by decide)

/-- Claim C6 evidence: the prune pass's two deletion call sites carry
different error policies — `shutil.rmtree` is invoked with the literal
`ignore_errors=True` (the flag recorded on the emitted op), silently
swallowing any deletion failure, while `os.remove` has no suppression and a
failure there raises and aborts the cycle. -/
theorem prune_deletion_policy_mixed :
    pruneOps [] [] [("stale.txt", FSTree.file [1]), ("stale_dir", FSTree.dir [])] =
      [FsOp.removeFile .replica ["stale.txt"],
        FsOp.removeTree .replica ["stale_dir"] true] :=
  rfl

/-- Claim C7: one `sync_folders` call over a replica holding an extra file and
an extra populated directory deletes both, and the replica afterwards equals
the source exactly. -/
theorem sync_removes_stale_file_and_dir :
    syncFolders [] (.dir [("file1.txt", FSTree.file [97])])
        (.dir [("file1.txt", FSTree.file [97]), ("stale.txt", FSTree.file [1]),
          ("stale_dir", FSTree.dir [("x", FSTree.file [2])])]) =
      ⟨.dir [("file1.txt", FSTree.file [97])],
        [FsOp.removeFile .replica ["stale.txt"],
          FsOp.removeTree .replica ["stale_dir"] true], none⟩ ∧
    sameTree (.dir [("file1.txt", FSTree.file [97])])
      (.dir [("file1.txt", FSTree.file [97])]) = true :=
  ⟨rfl, rfl⟩

/-- Claim C8: syncing a source holding `a/b/c/file.txt` into a replica holding
only the empty directory `a` creates each intermediate directory (`a/b`, then
`a/b/c`), copies the file, and the replica then holds `a/b/c/file.txt` with
the source's bytes. -/
theorem sync_creates_nested_dirs :
    syncFolders []
        (.dir [("a", FSTree.dir [("b", FSTree.dir [("c",
          FSTree.dir [("file.txt", FSTree.file [104])])])])])
        (.dir [("a", FSTree.dir [])]) =
      ⟨.dir [("a", FSTree.dir [("b", FSTree.dir [("c",
          FSTree.dir [("file.txt", FSTree.file [104])])])])],
        [FsOp.mkdir .replica ["a", "b"], FsOp.mkdir .replica ["a", "b", "c"],
          FsOp.copyFile .source ["a", "b", "c", "file.txt"]
            .replica ["a", "b", "c", "file.txt"]], none⟩ ∧
    sameTree
      (.dir [("a", FSTree.dir [("b", FSTree.dir [("c",
        FSTree.dir [("file.txt", FSTree.file [104])])])])])
      (.dir [("a", FSTree.dir [("b", FSTree.dir [("c",
        FSTree.dir [("file.txt", FSTree.file [104])])])])]) = true :=
  ⟨rfl, rfl⟩

end FolderSync
